import Mathlib

/-!
Shallow embedding of `src/main.rs` of the live-stream-blur repository.

An RGBA image buffer is modelled as its dimensions together with a total
pixel function; only the pixels at coordinates below the dimensions are
the buffer's content.  Machine `u32` box coordinates coming from the
detector's `i32` fields through `as u32` are modelled with an explicit
`% 2^32` wrap.  Operations that panic in Rust return `Option`, with
`none` standing for the panic: `GenericImageView::view` on an
out-of-bounds rectangle, `RgbaImage::put_pixel` at an out-of-bounds
coordinate (both in the box write-back and in the merge loop of the
scaled path), and `unwrap` on a failed decode.

The external collaborators are abstracted exactly at their interfaces:
the face detector is represented by the list of bounding boxes it
returns for the frame, the decoder by a function from bytes to
`Option Image`, and the `image` crate's `blur` at the configured
intensity by a dimension-preserving function on images (`BlurPrim`).
Nearest-neighbour `resize_exact` is translated with exact rational
index arithmetic in place of the crate's `f32` computation of
`(out + 0.5) * inLen / outLen`.

Alongside each panicking loop a total counterpart (suffix `T`) describes
the value it computes when every write is in bounds; the lemmas relate
the two and characterise the result pixel by pixel.
-/

structure Pixel where
  r : Nat
  g : Nat
  b : Nat
  a : Nat
deriving DecidableEq, Repr

/-- The fully transparent RGBA value `[0, 0, 0, 0]` used as sentinel. -/
def sentinel : Pixel := ⟨0, 0, 0, 0⟩

/-- An RGBA buffer: dimensions plus a (total) pixel function. -/
structure Image where
  width : Nat
  height : Nat
  pix : Nat → Nat → Pixel

/-- `struct Resolution { width: u32, height: u32 }`, `#[derive(PartialEq)]`. -/
structure Resolution where
  width : Nat
  height : Nat
deriving DecidableEq

/-- `struct Settings`; the `f32` field `blur_intensity` is absorbed into the
abstract blur primitive `BlurPrim` below. -/
structure Settings where
  framerate : Nat
  capture : Resolution
  detection : Resolution

/-- A detected face's bounding box, as produced by the detector:
`x`, `y` are `i32`, `width`, `height` are `u32`. -/
structure Bbox where
  x : Int
  y : Int
  width : Nat
  height : Nat
deriving DecidableEq, Repr

/-- The `image` crate's `blur(img, sigma)` at the fixed configured
intensity: an arbitrary image transformation that preserves dimensions. -/
structure BlurPrim where
  f : Image → Image
  width_eq : ∀ i, (f i).width = i.width
  height_eq : ∀ i, (f i).height = i.height

/-- Rust's `i32 as u32` cast. -/
def u32ofI32 (x : Int) : Nat := (x % (2 ^ 32)).toNat

/-- `let box_x = bbox.x() as u32`. -/
def bX (b : Bbox) : Nat := u32ofI32 b.x

/-- `let box_y = bbox.y() as u32`. -/
def bY (b : Bbox) : Nat := u32ofI32 b.y

/-- The in-bounds pixel update underlying `RgbaImage::put_pixel`. -/
def putPixelT (img : Image) (x y : Nat) (p : Pixel) : Image :=
  { img with pix := fun u v => if u = x ∧ v = y then p else img.pix u v }

/-- `RgbaImage::put_pixel`, which panics (modelled as `none`) when the
coordinate is outside the buffer. -/
def putPixel (img : Image) (x y : Nat) (p : Pixel) : Option Image :=
  if x < img.width ∧ y < img.height then some (putPixelT img x y p) else none

/-- The set of output coordinates written back for box `b`:
the half-open rectangle `[box_x, box_x + width) × [box_y, box_y + height)`. -/
def covers (b : Bbox) (X Y : Nat) : Prop :=
  bX b ≤ X ∧ X < bX b + b.width ∧ bY b ≤ Y ∧ Y < bY b + b.height

instance (b : Bbox) (X Y : Nat) : Decidable (covers b X Y) := by
  unfold covers; infer_instance

/-- The bounds check performed by `GenericImageView::view`. -/
def inBounds (src : Image) (b : Bbox) : Prop :=
  bX b + b.width ≤ src.width ∧ bY b + b.height ≤ src.height

instance (src : Image) (b : Bbox) : Decidable (inBounds src b) := by
  unfold inBounds; infer_instance

/-- The cropped sub-image `source.view(box_x, box_y, w, h).to_image()`,
as a total function on our image model. -/
def cropT (src : Image) (b : Bbox) : Image :=
  ⟨b.width, b.height, fun x y => src.pix (bX b + x) (bY b + y)⟩

/-- `source.view(...)` with the crate's panic on out-of-bounds modelled
as `none`. -/
def cropOpt (src : Image) (b : Bbox) : Option Image :=
  if inBounds src b then some (cropT src b) else none

/-- The type of the `callback` parameter of `loop_faces` (the callback is
`put_pixel`, so it can panic). -/
def Callback : Type := Image → Nat → Nat → Pixel → Option Image

/-- Inner loop of the `blurred.enumerate_pixels()` write-back: the writes of
one row `y`, at columns `0, …, n-1` (in the crate's enumeration order),
aborting at the first panicking write. -/
def writeRow (cb : Callback) (src : Image) (bx byy y : Nat) : Nat → Image → Option Image
  | 0, out => some out
  | n + 1, out =>
    match writeRow cb src bx byy y n out with
    | none => none
    | some o => cb o (n + bx) (y + byy) (src.pix n y)

/-- The write-back of rows `0, …, m-1` of `src`. -/
def writeRows (cb : Callback) (src : Image) (bx byy : Nat) : Nat → Image → Option Image
  | 0, out => some out
  | m + 1, out =>
    match writeRows cb src bx byy m out with
    | none => none
    | some o => writeRow cb src bx byy m src.width o

/-- `for (x, y, pixel) in blurred.enumerate_pixels() { callback(&mut output, x + box_x, y + box_y, pixel) }`. -/
def writeRegion (cb : Callback) (src : Image) (bx byy : Nat) (out : Image) : Option Image :=
  writeRows cb src bx byy src.height out

/-- The `for face in faces` loop of `loop_faces`: crop (panic on
out-of-bounds modelled as `none`), blur, write back through the callback
(whose out-of-bounds panic is `none` as well). -/
def loop_go (cb : Callback) (blurF : BlurPrim) (source : Image) : List Bbox → Image → Option Image
  | [], output => some output
  | face :: rest, output =>
    match cropOpt source face with
    | none => none
    | some cropped =>
      match writeRegion cb (blurF.f cropped) (bX face) (bY face) output with
      | none => none
      | some o => loop_go cb blurF source rest o

/-- `fn loop_faces(detector, options, source, vase, callback) -> RgbaImage`.
The detector call on `source`'s luminance buffer is abstracted by the list
`faces` of boxes it returns; `options.blur_intensity` is absorbed into
`blurF`.  `output` starts as `vase.to_rgba8()`. -/
def loop_faces (faces : List Bbox) (options : Settings) (blurF : BlurPrim) (source vase : Image) (cb : Callback) : Option Image :=
  loop_go cb blurF source faces vase

/-- Exact-arithmetic nearest-neighbour source index: the crate picks the
single source row/column `min(⌊(out + 0.5) * inLen / outLen⌋, inLen - 1)`. -/
def nearestIdx (out inLen outLen : Nat) : Nat :=
  min (((2 * out + 1) * inLen) / (2 * outLen)) (inLen - 1)

/-- `resize_exact(w, h, FilterType::Nearest)`: every output pixel is a copy
of its nearest source pixel. -/
def resizeNearest (img : Image) (w h : Nat) : Image :=
  ⟨w, h, fun x y => img.pix (nearestIdx x img.width w) (nearestIdx y img.height h)⟩

/-- `DynamicImage::new_rgba8(w, h)`: zero-initialised, i.e. every pixel is
the transparent sentinel. -/
def new_rgba8 (w h : Nat) : Image := ⟨w, h, fun _ _ => sentinel⟩

/-- One row of the merge loop of `process`:
`match pixel.0 { [0,0,0,0] => (), _ => output.put_pixel(x, y, pixel) }`,
with `put_pixel`'s out-of-bounds panic modelled as `none`. -/
def mergeRow (src : Image) (y : Nat) : Nat → Image → Option Image
  | 0, out => some out
  | n + 1, out =>
    match mergeRow src y n out with
    | none => none
    | some o => if src.pix n y = sentinel then some o else putPixel o n y (src.pix n y)

/-- Rows `0, …, m-1` of the merge loop. -/
def mergeRows (src : Image) : Nat → Image → Option Image
  | 0, out => some out
  | m + 1, out =>
    match mergeRows src m out with
    | none => none
    | some o => mergeRow src m src.width o

/-- `for (x, y, pixel) in resized_image.enumerate_pixels() { match ... }`. -/
def mergeImage (src out : Image) : Option Image := mergeRows src src.height out

/-- `fn process(detector, options, source) -> RgbaImage` (scaled path). -/
def process (faces : List Bbox) (options : Settings) (blurF : BlurPrim) (source : Image) : Option Image :=
  let low := resizeNearest source options.detection.width options.detection.height
  let blank := new_rgba8 options.detection.width options.detection.height
  match loop_faces faces options blurF low blank putPixel with
  | none => none
  | some tmp => mergeImage (resizeNearest tmp options.capture.width options.capture.height) source

/-- `fn process_light(detector, options, source) -> RgbaImage` (fast path). -/
def process_light (faces : List Bbox) (options : Settings) (blurF : BlurPrim) (source : Image) : Option Image :=
  loop_faces faces options blurF source source putPixel

/-- `fn get_image_from_frame(detector, buffer, options)`: decode (the
`unwrap` panic on malformed bytes modelled as `none`), then select the
fast path iff `options.detection == options.capture`.  The external
codec is the parameter `decode`; the final `Texture::from_image` sink is
the identity on the buffer. -/
def get_image_from_frame (decode : List Nat → Option Image) (faces : List Bbox) (blurF : BlurPrim) (buffer : List Nat) (options : Settings) : Option Image :=
  match decode buffer with
  | none => none
  | some image =>
    if options.detection = options.capture then process_light faces options blurF image
    else process faces options blurF image

/-! ### Total counterparts of the panicking loops (proof layer)

These mirror the loops above with the in-bounds update `putPixelT`; the
lemmas below show each loop returns `some` of its total counterpart
exactly when every write is in bounds. -/

/-- Total counterpart of `writeRow` at the `put_pixel` callback. -/
def writeRowT (src : Image) (bx byy y : Nat) : Nat → Image → Image
  | 0, out => out
  | n + 1, out => putPixelT (writeRowT src bx byy y n out) (n + bx) (y + byy) (src.pix n y)

/-- Total counterpart of `writeRows` at the `put_pixel` callback. -/
def writeRowsT (src : Image) (bx byy : Nat) : Nat → Image → Image
  | 0, out => out
  | m + 1, out => writeRowT src bx byy m src.width (writeRowsT src bx byy m out)

/-- Total counterpart of `writeRegion` at the `put_pixel` callback. -/
def writeRegionT (src : Image) (bx byy : Nat) (out : Image) : Image :=
  writeRowsT src bx byy src.height out

/-- Total counterpart of the `for face in faces` loop with the
`put_pixel` callback, describing the buffer produced when neither the
crops nor the writes go out of bounds. -/
def loop_total (blurF : BlurPrim) (source : Image) : List Bbox → Image → Image
  | [], output => output
  | face :: rest, output =>
    loop_total blurF source rest (writeRegionT (blurF.f (cropT source face)) (bX face) (bY face) output)

/-- Total counterpart of one merge row. -/
def mergeRowT (src : Image) (y : Nat) : Nat → Image → Image
  | 0, out => out
  | n + 1, out =>
    if src.pix n y = sentinel then mergeRowT src y n out
    else putPixelT (mergeRowT src y n out) n y (src.pix n y)

/-- Total counterpart of the merge rows. -/
def mergeRowsT (src : Image) : Nat → Image → Image
  | 0, out => out
  | m + 1, out => mergeRowT src m src.width (mergeRowsT src m out)

/-- Total counterpart of the merge loop. -/
def mergeImageT (src out : Image) : Image := mergeRowsT src src.height out

/-! ### Derived notions used to state the claims -/

/-- A fully opaque frame: every pixel's alpha channel is 255. -/
def Image.Opaque (i : Image) : Prop := ∀ x y, (i.pix x y).a = 255

/-- In-bounds of the detection-resolution buffer (the buffer `loop_faces`
crops from on the scaled path). -/
def detInBounds (options : Settings) (b : Bbox) : Prop :=
  bX b + b.width ≤ options.detection.width ∧ bY b + b.height ≤ options.detection.height

instance (options : Settings) (b : Bbox) : Decidable (detInBounds options b) := by
  unfold detInBounds; infer_instance

/-- The box whose write-back wins at output coordinate `(X, Y)`: the last
box in detector order whose rectangle covers the coordinate. -/
def lastHit (faces : List Bbox) (X Y : Nat) : Option Bbox :=
  List.find? (fun b => decide (covers b X Y)) faces.reverse

/-- Capture-space coordinate `(X, Y)` lies inside the upscaled box `b`:
its nearest-neighbour source coordinate in detection space lies in `b`. -/
def upscaledCovers (options : Settings) (b : Bbox) (X Y : Nat) : Prop :=
  covers b (nearestIdx X options.detection.width options.capture.width)
    (nearestIdx Y options.detection.height options.capture.height)

instance (options : Settings) (b : Bbox) (X Y : Nat) : Decidable (upscaledCovers options b X Y) := by
  unfold upscaledCovers; infer_instance

/-- Bit-identical buffers: same dimensions and the same pixel at every
in-bounds coordinate. -/
def BufferEq (i j : Image) : Prop :=
  i.width = j.width ∧ i.height = j.height ∧
    ∀ x y, x < i.width → y < i.height → i.pix x y = j.pix x y

/-- `BufferEq` lifted to the possibly-panicking results. -/
def OptionBufferEq : Option Image → Option Image → Prop
  | none, none => True
  | some i, some j => BufferEq i j
  | _, _ => False

/-- Two boxes are non-overlapping when no coordinate is covered by both. -/
def BoxDisjoint (a b : Bbox) : Prop := ∀ X Y : Nat, ¬(covers a X Y ∧ covers b X Y)

/-- The write-back region of box `b` fits inside the buffer `vase`:
every write the box causes lands in bounds. -/
def boxFits (vase : Image) (b : Bbox) : Prop :=
  ∀ i j : Nat, i < b.width → j < b.height → i + bX b < vase.width ∧ j + bY b < vase.height

/-- A trivial instance of the blur interface (used to instantiate the
theorems at concrete inputs). -/
def idBlur : BlurPrim := ⟨fun i => i, fun _ => rfl, fun _ => rfl⟩

/-! ### Dimension preservation and pixel characterisation of the total loops -/

theorem putPixelT_width (img : Image) (x y : Nat) (p : Pixel) : (putPixelT img x y p).width = img.width := rfl

theorem putPixelT_height (img : Image) (x y : Nat) (p : Pixel) : (putPixelT img x y p).height = img.height := rfl

theorem writeRowT_width (src : Image) (bx byy y : Nat) (n : Nat) (out : Image) :
    (writeRowT src bx byy y n out).width = out.width := by
  induction n with
  | zero => rfl
  | succ n ih => simp only [writeRowT, putPixelT_width]; exact ih

theorem writeRowT_height (src : Image) (bx byy y : Nat) (n : Nat) (out : Image) :
    (writeRowT src bx byy y n out).height = out.height := by
  induction n with
  | zero => rfl
  | succ n ih => simp only [writeRowT, putPixelT_height]; exact ih

theorem writeRowsT_width (src : Image) (bx byy : Nat) (m : Nat) (out : Image) :
    (writeRowsT src bx byy m out).width = out.width := by
  induction m with
  | zero => rfl
  | succ m ih => simp only [writeRowsT, writeRowT_width]; exact ih

theorem writeRowsT_height (src : Image) (bx byy : Nat) (m : Nat) (out : Image) :
    (writeRowsT src bx byy m out).height = out.height := by
  induction m with
  | zero => rfl
  | succ m ih => simp only [writeRowsT, writeRowT_height]; exact ih

theorem writeRegionT_width (src : Image) (bx byy : Nat) (out : Image) :
    (writeRegionT src bx byy out).width = out.width :=
  writeRowsT_width src bx byy src.height out

theorem writeRegionT_height (src : Image) (bx byy : Nat) (out : Image) :
    (writeRegionT src bx byy out).height = out.height :=
  writeRowsT_height src bx byy src.height out

theorem writeRowT_pix (src : Image) (bx byy y n : Nat) (out : Image) (X Y : Nat) :
    (writeRowT src bx byy y n out).pix X Y =
      if Y = y + byy ∧ bx ≤ X ∧ X < bx + n then src.pix (X - bx) y else out.pix X Y := by
  induction n with
  | zero =>
    rw [writeRowT, if_neg]
    intro h
    omega
  | succ n ih =>
    show (putPixelT (writeRowT src bx byy y n out) (n + bx) (y + byy) (src.pix n y)).pix X Y = _
    simp only [putPixelT]
    rw [ih]
    split_ifs with h1 h2 h2 <;>
      first
        | rfl
        | (exfalso; omega)
        | (have hx : X - bx = n := by omega
           rw [hx])

theorem writeRowsT_pix (src : Image) (bx byy m : Nat) (out : Image) (X Y : Nat) :
    (writeRowsT src bx byy m out).pix X Y =
      if bx ≤ X ∧ X < bx + src.width ∧ byy ≤ Y ∧ Y < byy + m then
        src.pix (X - bx) (Y - byy)
      else out.pix X Y := by
  induction m with
  | zero =>
    rw [writeRowsT, if_neg]
    intro h
    omega
  | succ m ih =>
    show (writeRowT src bx byy m src.width (writeRowsT src bx byy m out)).pix X Y = _
    rw [writeRowT_pix, ih]
    split_ifs with h1 h2 h2 <;>
      first
        | rfl
        | (exfalso; omega)
        | (have hy : Y - byy = m := by omega
           rw [hy])

theorem writeRegionT_pix (src : Image) (bx byy : Nat) (out : Image) (X Y : Nat) :
    (writeRegionT src bx byy out).pix X Y =
      if bx ≤ X ∧ X < bx + src.width ∧ byy ≤ Y ∧ Y < byy + src.height then
        src.pix (X - bx) (Y - byy)
      else out.pix X Y :=
  writeRowsT_pix src bx byy src.height out X Y

theorem loop_total_width (blurF : BlurPrim) (source : Image) (faces : List Bbox) (output : Image) :
    (loop_total blurF source faces output).width = output.width := by
  induction faces generalizing output with
  | nil => rfl
  | cons face rest ih =>
    show (loop_total blurF source rest _).width = _
    rw [ih, writeRegionT_width]

theorem loop_total_height (blurF : BlurPrim) (source : Image) (faces : List Bbox) (output : Image) :
    (loop_total blurF source faces output).height = output.height := by
  induction faces generalizing output with
  | nil => rfl
  | cons face rest ih =>
    show (loop_total blurF source rest _).height = _
    rw [ih, writeRegionT_height]

theorem lastHit_nil (X Y : Nat) : lastHit [] X Y = none := rfl

theorem lastHit_cons (face : Bbox) (rest : List Bbox) (X Y : Nat) :
    lastHit (face :: rest) X Y =
      match lastHit rest X Y with
      | some b => some b
      | none => if covers face X Y then some face else none := by
  show List.find? _ (face :: rest).reverse = _
  rw [List.reverse_cons, List.find?_append]
  cases hfind : lastHit rest X Y with
  | some b => rw [lastHit] at hfind; rw [hfind]; rfl
  | none =>
    rw [lastHit] at hfind
    rw [hfind, Option.none_or]
    show List.find? _ [face] = if covers face X Y then some face else none
    by_cases hc : covers face X Y <;> simp [hc, List.find?_cons]

theorem loop_total_pix (blurF : BlurPrim) (source : Image) (faces : List Bbox) (output : Image) (X Y : Nat) :
    (loop_total blurF source faces output).pix X Y =
      match lastHit faces X Y with
      | some b => (blurF.f (cropT source b)).pix (X - bX b) (Y - bY b)
      | none => output.pix X Y := by
  induction faces generalizing output with
  | nil => rfl
  | cons face rest ih =>
    show (loop_total blurF source rest _).pix X Y = _
    rw [ih, lastHit_cons]
    cases hfind : lastHit rest X Y with
    | some b => rfl
    | none =>
      show (writeRegionT (blurF.f (cropT source face)) (bX face) (bY face) output).pix X Y = _
      rw [writeRegionT_pix]
      have hw : (blurF.f (cropT source face)).width = face.width := blurF.width_eq _
      have hh : (blurF.f (cropT source face)).height = face.height := blurF.height_eq _
      rw [hw, hh]
      by_cases hc : covers face X Y
      · rw [if_pos (by exact hc), if_pos hc]
      · rw [if_neg (by exact hc), if_neg hc]

/-! ### Nearest-neighbour index -/

theorem nearestIdx_self (x n : Nat) (h : x < n) : nearestIdx x n n = x := by
  unfold nearestIdx
  have h2 : (2 * x + 1) * n = 2 * n * x + n := by ring
  rw [h2, Nat.mul_add_div (by omega), Nat.div_eq_of_lt (by omega)]
  omega

theorem nearestIdx_lt (out inLen outLen : Nat) (h : 0 < inLen) :
    nearestIdx out inLen outLen < inLen := by
  unfold nearestIdx
  have := Nat.min_le_right (((2 * out + 1) * inLen) / (2 * outLen)) (inLen - 1)
  omega

theorem resizeNearest_width (img : Image) (w h : Nat) : (resizeNearest img w h).width = w := rfl

theorem resizeNearest_height (img : Image) (w h : Nat) : (resizeNearest img w h).height = h := rfl

theorem resizeNearest_pix (img : Image) (w h x y : Nat) :
    (resizeNearest img w h).pix x y =
      img.pix (nearestIdx x img.width w) (nearestIdx y img.height h) := rfl

theorem new_rgba8_width (w h : Nat) : (new_rgba8 w h).width = w := rfl

theorem new_rgba8_height (w h : Nat) : (new_rgba8 w h).height = h := rfl

theorem new_rgba8_pix (w h x y : Nat) : (new_rgba8 w h).pix x y = sentinel := rfl

/-! ### The total merge loop -/

theorem mergeRowT_width (src : Image) (y n : Nat) (out : Image) :
    (mergeRowT src y n out).width = out.width := by
  induction n with
  | zero => rfl
  | succ n ih =>
    show (if src.pix n y = sentinel then mergeRowT src y n out
      else putPixelT (mergeRowT src y n out) n y (src.pix n y)).width = _
    split_ifs
    · exact ih
    · rw [putPixelT_width]; exact ih

theorem mergeRowT_height (src : Image) (y n : Nat) (out : Image) :
    (mergeRowT src y n out).height = out.height := by
  induction n with
  | zero => rfl
  | succ n ih =>
    show (if src.pix n y = sentinel then mergeRowT src y n out
      else putPixelT (mergeRowT src y n out) n y (src.pix n y)).height = _
    split_ifs
    · exact ih
    · rw [putPixelT_height]; exact ih

theorem mergeRowsT_width (src : Image) (m : Nat) (out : Image) :
    (mergeRowsT src m out).width = out.width := by
  induction m with
  | zero => rfl
  | succ m ih =>
    show (mergeRowT src m src.width (mergeRowsT src m out)).width = _
    rw [mergeRowT_width, ih]

theorem mergeRowsT_height (src : Image) (m : Nat) (out : Image) :
    (mergeRowsT src m out).height = out.height := by
  induction m with
  | zero => rfl
  | succ m ih =>
    show (mergeRowT src m src.width (mergeRowsT src m out)).height = _
    rw [mergeRowT_height, ih]

theorem mergeImageT_width (src out : Image) : (mergeImageT src out).width = out.width :=
  mergeRowsT_width src src.height out

theorem mergeImageT_height (src out : Image) : (mergeImageT src out).height = out.height :=
  mergeRowsT_height src src.height out

theorem mergeRowT_pix (src : Image) (y n : Nat) (out : Image) (X Y : Nat) :
    (mergeRowT src y n out).pix X Y =
      if Y = y ∧ X < n ∧ src.pix X Y ≠ sentinel then src.pix X Y else out.pix X Y := by
  induction n with
  | zero =>
    rw [mergeRowT, if_neg]
    intro h
    omega
  | succ n ih =>
    show (if src.pix n y = sentinel then mergeRowT src y n out
      else putPixelT (mergeRowT src y n out) n y (src.pix n y)).pix X Y = _
    by_cases hs : src.pix n y = sentinel
    · rw [if_pos hs, ih]
      split_ifs with h1 h2 h2
      · rfl
      · exact absurd ⟨h1.1, by omega, h1.2.2⟩ h2
      · by_cases hXn : X < n
        · exact absurd ⟨h2.1, hXn, h2.2.2⟩ h1
        · have hX : X = n := by omega
          exact absurd (hX ▸ h2.1 ▸ hs) h2.2.2
      · rfl
    · rw [if_neg hs]
      show (if X = n ∧ Y = y then src.pix n y else (mergeRowT src y n out).pix X Y) = _
      rw [ih]
      by_cases hp : X = n ∧ Y = y
      · rw [if_pos hp, if_pos ⟨hp.2, by omega, by rw [hp.1, hp.2]; exact hs⟩, hp.1, hp.2]
      · rw [if_neg hp]
        split_ifs with h1 h2 h2
        · rfl
        · exact absurd ⟨h1.1, by omega, h1.2.2⟩ h2
        · have hX : X = n := by
            rcases Nat.lt_succ_iff_lt_or_eq.mp h2.2.1 with hlt | heq
            · exact absurd ⟨h2.1, hlt, h2.2.2⟩ h1
            · exact heq
          exact absurd ⟨hX, h2.1⟩ hp
        · rfl

theorem mergeRowsT_pix (src : Image) (m : Nat) (out : Image) (X Y : Nat) :
    (mergeRowsT src m out).pix X Y =
      if X < src.width ∧ Y < m ∧ src.pix X Y ≠ sentinel then src.pix X Y else out.pix X Y := by
  induction m with
  | zero =>
    rw [mergeRowsT, if_neg]
    intro h
    omega
  | succ m ih =>
    show (mergeRowT src m src.width (mergeRowsT src m out)).pix X Y = _
    rw [mergeRowT_pix, ih]
    by_cases h1 : Y = m ∧ X < src.width ∧ src.pix X Y ≠ sentinel
    · rw [if_pos h1, if_pos ⟨h1.2.1, by omega, h1.2.2⟩]
    · rw [if_neg h1]
      by_cases h2 : X < src.width ∧ Y < m ∧ src.pix X Y ≠ sentinel
      · rw [if_pos h2, if_pos ⟨h2.1, by omega, h2.2.2⟩]
      · rw [if_neg h2, if_neg]
        intro h3
        by_cases hY : Y = m
        · exact h1 ⟨hY, h3.1, h3.2.2⟩
        · exact h2 ⟨h3.1, by omega, h3.2.2⟩

theorem mergeImageT_pix (src out : Image) (X Y : Nat) :
    (mergeImageT src out).pix X Y =
      if X < src.width ∧ Y < src.height ∧ src.pix X Y ≠ sentinel then src.pix X Y else out.pix X Y :=
  mergeRowsT_pix src src.height out X Y

/-! ### Bridging the panicking loops with their total counterparts -/

theorem putPixel_some (img : Image) (x y : Nat) (p : Pixel) (h1 : x < img.width) (h2 : y < img.height) :
    putPixel img x y p = some (putPixelT img x y p) := if_pos ⟨h1, h2⟩

theorem putPixel_dims_of_some (img : Image) (x y : Nat) (p : Pixel) (o : Image)
    (h : putPixel img x y p = some o) : o.width = img.width ∧ o.height = img.height := by
  unfold putPixel at h
  split_ifs at h
  · rw [← Option.some.inj h, putPixelT_width, putPixelT_height]
    exact ⟨rfl, rfl⟩

theorem putPixel_none (img : Image) (x y : Nat) (p : Pixel)
    (h : ¬(x < img.width ∧ y < img.height)) : putPixel img x y p = none := if_neg h

theorem writeRow_eq_someT (src : Image) (bx byy y n : Nat) (out : Image)
    (h : ∀ i, i < n → i + bx < out.width ∧ y + byy < out.height) :
    writeRow putPixel src bx byy y n out = some (writeRowT src bx byy y n out) := by
  induction n with
  | zero => rfl
  | succ n ih =>
    show (match writeRow putPixel src bx byy y n out with
      | none => none
      | some o => putPixel o (n + bx) (y + byy) (src.pix n y)) = _
    rw [ih (fun i hi => h i (by omega))]
    show putPixel (writeRowT src bx byy y n out) (n + bx) (y + byy) (src.pix n y) = _
    rw [putPixel_some]
    · rfl
    · rw [writeRowT_width]
      exact (h n (by omega)).1
    · rw [writeRowT_height]
      exact (h n (by omega)).2

theorem writeRow_dims_of_some (src : Image) (bx byy y n : Nat) (out o : Image)
    (h : writeRow putPixel src bx byy y n out = some o) :
    o.width = out.width ∧ o.height = out.height := by
  induction n generalizing o with
  | zero =>
    rw [writeRow] at h
    rw [← Option.some.inj h]
    exact ⟨rfl, rfl⟩
  | succ n ih =>
    rw [writeRow] at h
    cases hrec : writeRow putPixel src bx byy y n out with
    | none => rw [hrec] at h; cases h
    | some o2 =>
      rw [hrec] at h
      have hd2 := ih o2 hrec
      have hd := putPixel_dims_of_some o2 (n + bx) (y + byy) (src.pix n y) o h
      exact ⟨hd.1.trans hd2.1, hd.2.trans hd2.2⟩

theorem writeRow_none_of_unfit (src : Image) (bx byy y n : Nat) (out : Image)
    (h : ∃ i, i < n ∧ ¬(i + bx < out.width ∧ y + byy < out.height)) :
    writeRow putPixel src bx byy y n out = none := by
  induction n with
  | zero =>
    obtain ⟨i, hi, _⟩ := h
    omega
  | succ n ih =>
    show (match writeRow putPixel src bx byy y n out with
      | none => none
      | some o => putPixel o (n + bx) (y + byy) (src.pix n y)) = none
    obtain ⟨i, hi, hbad⟩ := h
    by_cases hin : i < n
    · rw [ih ⟨i, hin, hbad⟩]
    · have hieq : i = n := by omega
      cases hrec : writeRow putPixel src bx byy y n out with
      | none => rfl
      | some o =>
        have hd := writeRow_dims_of_some src bx byy y n out o hrec
        show putPixel o (n + bx) (y + byy) (src.pix n y) = none
        apply putPixel_none
        rw [hd.1, hd.2, ← hieq]
        exact hbad

theorem writeRows_eq_someT (src : Image) (bx byy m : Nat) (out : Image)
    (h : ∀ i j, i < src.width → j < m → i + bx < out.width ∧ j + byy < out.height) :
    writeRows putPixel src bx byy m out = some (writeRowsT src bx byy m out) := by
  induction m with
  | zero => rfl
  | succ m ih =>
    show (match writeRows putPixel src bx byy m out with
      | none => none
      | some o => writeRow putPixel src bx byy m src.width o) = _
    rw [ih (fun i j hi hj => h i j hi (by omega))]
    show writeRow putPixel src bx byy m src.width (writeRowsT src bx byy m out) = _
    rw [writeRow_eq_someT src bx byy m src.width _ (fun i hi => by
      rw [writeRowsT_width, writeRowsT_height]
      exact h i m hi (by omega))]
    rfl

theorem writeRows_dims_of_some (src : Image) (bx byy m : Nat) (out o : Image)
    (h : writeRows putPixel src bx byy m out = some o) :
    o.width = out.width ∧ o.height = out.height := by
  induction m generalizing o with
  | zero =>
    rw [writeRows] at h
    rw [← Option.some.inj h]
    exact ⟨rfl, rfl⟩
  | succ m ih =>
    rw [writeRows] at h
    cases hrec : writeRows putPixel src bx byy m out with
    | none => rw [hrec] at h; cases h
    | some o2 =>
      rw [hrec] at h
      have hd2 := ih o2 hrec
      have hd := writeRow_dims_of_some src bx byy m src.width o2 o h
      exact ⟨hd.1.trans hd2.1, hd.2.trans hd2.2⟩

theorem writeRows_none_of_unfit (src : Image) (bx byy m : Nat) (out : Image)
    (h : ∃ i j, i < src.width ∧ j < m ∧ ¬(i + bx < out.width ∧ j + byy < out.height)) :
    writeRows putPixel src bx byy m out = none := by
  induction m with
  | zero =>
    obtain ⟨i, j, _, hj, _⟩ := h
    omega
  | succ m ih =>
    show (match writeRows putPixel src bx byy m out with
      | none => none
      | some o => writeRow putPixel src bx byy m src.width o) = none
    obtain ⟨i, j, hi, hj, hbad⟩ := h
    by_cases hjm : j < m
    · rw [ih ⟨i, j, hi, hjm, hbad⟩]
    · have hjeq : j = m := by omega
      cases hrec : writeRows putPixel src bx byy m out with
      | none => rfl
      | some o =>
        have hd := writeRows_dims_of_some src bx byy m out o hrec
        show writeRow putPixel src bx byy m src.width o = none
        apply writeRow_none_of_unfit
        refine ⟨i, hi, ?_⟩
        rw [hd.1, hd.2, ← hjeq]
        exact hbad

theorem writeRegion_eq_someT (src : Image) (bx byy : Nat) (out : Image)
    (h : ∀ i j, i < src.width → j < src.height → i + bx < out.width ∧ j + byy < out.height) :
    writeRegion putPixel src bx byy out = some (writeRegionT src bx byy out) :=
  writeRows_eq_someT src bx byy src.height out h

theorem writeRegion_dims_of_some (src : Image) (bx byy : Nat) (out o : Image)
    (h : writeRegion putPixel src bx byy out = some o) :
    o.width = out.width ∧ o.height = out.height :=
  writeRows_dims_of_some src bx byy src.height out o h

theorem writeRegion_none_of_unfit (src : Image) (bx byy : Nat) (out : Image)
    (h : ∃ i j, i < src.width ∧ j < src.height ∧ ¬(i + bx < out.width ∧ j + byy < out.height)) :
    writeRegion putPixel src bx byy out = none :=
  writeRows_none_of_unfit src bx byy src.height out h

/-! ### The face loop: success, panic, dimensions -/

theorem boxFits_of_dims_eq (v1 v2 : Image) (b : Bbox) (hw : v1.width = v2.width)
    (hh : v1.height = v2.height) (h : boxFits v1 b) : boxFits v2 b := by
  intro i j hi hj
  rw [← hw, ← hh]
  exact h i j hi hj

theorem loop_go_eq_some (blurF : BlurPrim) (source : Image) (faces : List Bbox) (vase : Image)
    (hin : ∀ b ∈ faces, inBounds source b)
    (hfit : ∀ b ∈ faces, boxFits vase b) :
    loop_go putPixel blurF source faces vase = some (loop_total blurF source faces vase) := by
  induction faces generalizing vase with
  | nil => rfl
  | cons face rest ih =>
    have hface : inBounds source face := hin face (List.mem_cons_self face rest)
    have hffit : boxFits vase face := hfit face (List.mem_cons_self face rest)
    show (match cropOpt source face with
      | none => none
      | some cropped =>
        match writeRegion putPixel (blurF.f cropped) (bX face) (bY face) vase with
        | none => none
        | some o => loop_go putPixel blurF source rest o) = _
    rw [cropOpt, if_pos hface]
    show (match writeRegion putPixel (blurF.f (cropT source face)) (bX face) (bY face) vase with
      | none => none
      | some o => loop_go putPixel blurF source rest o) = _
    have hw : (blurF.f (cropT source face)).width = face.width := blurF.width_eq _
    have hh : (blurF.f (cropT source face)).height = face.height := blurF.height_eq _
    rw [writeRegion_eq_someT _ _ _ _ (fun i j hi hj => by
      rw [hw] at hi
      rw [hh] at hj
      exact hffit i j hi hj)]
    show loop_go putPixel blurF source rest (writeRegionT (blurF.f (cropT source face)) (bX face) (bY face) vase) = _
    rw [ih _ (fun b hb => hin b (List.mem_cons_of_mem face hb))
      (fun b hb => boxFits_of_dims_eq vase _ b
        (writeRegionT_width _ _ _ _).symm (writeRegionT_height _ _ _ _).symm
        (hfit b (List.mem_cons_of_mem face hb)))]
    rfl

theorem loop_go_eq_none (cb : Callback) (blurF : BlurPrim) (source : Image) (faces : List Bbox) (vase : Image)
    (h : ∃ b ∈ faces, ¬inBounds source b) :
    loop_go cb blurF source faces vase = none := by
  induction faces generalizing vase with
  | nil => simp at h
  | cons face rest ih =>
    show (match cropOpt source face with
      | none => none
      | some cropped =>
        match writeRegion cb (blurF.f cropped) (bX face) (bY face) vase with
        | none => none
        | some o => loop_go cb blurF source rest o) = none
    by_cases hface : inBounds source face
    · rw [cropOpt, if_pos hface]
      show (match writeRegion cb (blurF.f (cropT source face)) (bX face) (bY face) vase with
        | none => none
        | some o => loop_go cb blurF source rest o) = none
      have hrest : ∃ b ∈ rest, ¬inBounds source b := by
        obtain ⟨b, hb, hnb⟩ := h
        rcases List.mem_cons.mp hb with hb | hb
        · exact absurd (hb ▸ hface) hnb
        · exact ⟨b, hb, hnb⟩
      cases hreg : writeRegion cb (blurF.f (cropT source face)) (bX face) (bY face) vase with
      | none => rfl
      | some o =>
        show loop_go cb blurF source rest o = none
        exact ih o hrest
    · rw [cropOpt, if_neg hface]

theorem loop_go_none_of_unfit (blurF : BlurPrim) (source : Image) (faces : List Bbox) (vase : Image)
    (hin : ∀ b ∈ faces, inBounds source b)
    (h : ∃ b ∈ faces, ¬boxFits vase b) :
    loop_go putPixel blurF source faces vase = none := by
  induction faces generalizing vase with
  | nil => simp at h
  | cons face rest ih =>
    have hface : inBounds source face := hin face (List.mem_cons_self face rest)
    show (match cropOpt source face with
      | none => none
      | some cropped =>
        match writeRegion putPixel (blurF.f cropped) (bX face) (bY face) vase with
        | none => none
        | some o => loop_go putPixel blurF source rest o) = none
    rw [cropOpt, if_pos hface]
    show (match writeRegion putPixel (blurF.f (cropT source face)) (bX face) (bY face) vase with
      | none => none
      | some o => loop_go putPixel blurF source rest o) = none
    obtain ⟨b, hb, hnb⟩ := h
    have hw : (blurF.f (cropT source face)).width = face.width := blurF.width_eq _
    have hh : (blurF.f (cropT source face)).height = face.height := blurF.height_eq _
    rcases List.mem_cons.mp hb with hbf | hbr
    · have hnface : ¬boxFits vase face := hbf ▸ hnb
      have hex : ∃ i j, i < (blurF.f (cropT source face)).width ∧
          j < (blurF.f (cropT source face)).height ∧
          ¬(i + bX face < vase.width ∧ j + bY face < vase.height) := by
        rw [hw, hh]
        by_contra hno
        push_neg at hno
        apply hnface
        intro i j hi hj
        exact hno i j hi hj
      rw [writeRegion_none_of_unfit _ _ _ _ hex]
    · cases hreg : writeRegion putPixel (blurF.f (cropT source face)) (bX face) (bY face) vase with
      | none => rfl
      | some o =>
        show loop_go putPixel blurF source rest o = none
        have hd := writeRegion_dims_of_some _ _ _ _ _ hreg
        apply ih o (fun b2 hb2 => hin b2 (List.mem_cons_of_mem face hb2))
        refine ⟨b, hbr, fun hfb => hnb ?_⟩
        exact boxFits_of_dims_eq o vase b hd.1 hd.2 hfb

theorem loop_go_dims_of_some (blurF : BlurPrim) (source : Image) (faces : List Bbox)
    (vase out : Image)
    (h : loop_go putPixel blurF source faces vase = some out) :
    out.width = vase.width ∧ out.height = vase.height := by
  induction faces generalizing vase with
  | nil =>
    rw [loop_go] at h
    rw [← Option.some.inj h]
    exact ⟨rfl, rfl⟩
  | cons face rest ih =>
    rw [loop_go] at h
    cases hcrop : cropOpt source face with
    | none => rw [hcrop] at h; cases h
    | some cropped =>
      rw [hcrop] at h
      have h2 : (match writeRegion putPixel (blurF.f cropped) (bX face) (bY face) vase with
        | none => none
        | some o => loop_go putPixel blurF source rest o) = some out := h
      cases hreg : writeRegion putPixel (blurF.f cropped) (bX face) (bY face) vase with
      | none => rw [hreg] at h2; cases h2
      | some o =>
        rw [hreg] at h2
        have hd := writeRegion_dims_of_some _ _ _ _ _ hreg
        have hd2 := ih o h2
        exact ⟨hd2.1.trans hd.1, hd2.2.trans hd.2⟩

/-! ### Bridging the merge loop with its total counterpart -/

theorem mergeRow_eq_someT (src : Image) (y n : Nat) (out : Image)
    (h : ∀ i, i < n → src.pix i y ≠ sentinel → i < out.width ∧ y < out.height) :
    mergeRow src y n out = some (mergeRowT src y n out) := by
  induction n with
  | zero => rfl
  | succ n ih =>
    show (match mergeRow src y n out with
      | none => none
      | some o => if src.pix n y = sentinel then some o else putPixel o n y (src.pix n y)) = _
    rw [ih (fun i hi => h i (by omega))]
    show (if src.pix n y = sentinel then some (mergeRowT src y n out)
      else putPixel (mergeRowT src y n out) n y (src.pix n y)) =
      some (if src.pix n y = sentinel then mergeRowT src y n out
        else putPixelT (mergeRowT src y n out) n y (src.pix n y))
    by_cases hs : src.pix n y = sentinel
    · rw [if_pos hs, if_pos hs]
    · rw [if_neg hs, if_neg hs, putPixel_some]
      · rw [mergeRowT_width]
        exact (h n (by omega) hs).1
      · rw [mergeRowT_height]
        exact (h n (by omega) hs).2

theorem mergeRow_dims_of_some (src : Image) (y n : Nat) (out o : Image)
    (h : mergeRow src y n out = some o) : o.width = out.width ∧ o.height = out.height := by
  induction n generalizing o with
  | zero =>
    rw [mergeRow] at h
    rw [← Option.some.inj h]
    exact ⟨rfl, rfl⟩
  | succ n ih =>
    rw [mergeRow] at h
    cases hrec : mergeRow src y n out with
    | none => rw [hrec] at h; cases h
    | some o2 =>
      rw [hrec] at h
      have h2 : (if src.pix n y = sentinel then some o2 else putPixel o2 n y (src.pix n y)) = some o := h
      have hd2 := ih o2 hrec
      by_cases hs : src.pix n y = sentinel
      · rw [if_pos hs] at h2
        rw [← Option.some.inj h2]
        exact hd2
      · rw [if_neg hs] at h2
        have hd := putPixel_dims_of_some o2 n y (src.pix n y) o h2
        exact ⟨hd.1.trans hd2.1, hd.2.trans hd2.2⟩

theorem mergeRow_none_of (src : Image) (y n : Nat) (out : Image)
    (h : ∃ i, i < n ∧ src.pix i y ≠ sentinel ∧ ¬(i < out.width ∧ y < out.height)) :
    mergeRow src y n out = none := by
  induction n with
  | zero =>
    obtain ⟨i, hi, _⟩ := h
    omega
  | succ n ih =>
    show (match mergeRow src y n out with
      | none => none
      | some o => if src.pix n y = sentinel then some o else putPixel o n y (src.pix n y)) = none
    obtain ⟨i, hi, hne, hbad⟩ := h
    by_cases hin : i < n
    · rw [ih ⟨i, hin, hne, hbad⟩]
    · have hieq : i = n := by omega
      cases hrec : mergeRow src y n out with
      | none => rfl
      | some o =>
        have hd := mergeRow_dims_of_some src y n out o hrec
        show (if src.pix n y = sentinel then some o else putPixel o n y (src.pix n y)) = none
        rw [if_neg (hieq ▸ hne), putPixel_none]
        rw [hd.1, hd.2, ← hieq]
        exact hbad

theorem mergeRows_eq_someT (src : Image) (m : Nat) (out : Image)
    (h : ∀ i j, i < src.width → j < m → src.pix i j ≠ sentinel → i < out.width ∧ j < out.height) :
    mergeRows src m out = some (mergeRowsT src m out) := by
  induction m with
  | zero => rfl
  | succ m ih =>
    show (match mergeRows src m out with
      | none => none
      | some o => mergeRow src m src.width o) = _
    rw [ih (fun i j hi hj => h i j hi (by omega))]
    show mergeRow src m src.width (mergeRowsT src m out) = _
    rw [mergeRow_eq_someT src m src.width _ (fun i hi hne => by
      rw [mergeRowsT_width, mergeRowsT_height]
      exact h i m hi (by omega) hne)]
    rfl

theorem mergeRows_dims_of_some (src : Image) (m : Nat) (out o : Image)
    (h : mergeRows src m out = some o) : o.width = out.width ∧ o.height = out.height := by
  induction m generalizing o with
  | zero =>
    rw [mergeRows] at h
    rw [← Option.some.inj h]
    exact ⟨rfl, rfl⟩
  | succ m ih =>
    rw [mergeRows] at h
    cases hrec : mergeRows src m out with
    | none => rw [hrec] at h; cases h
    | some o2 =>
      rw [hrec] at h
      have h2 : mergeRow src m src.width o2 = some o := h
      have hd2 := ih o2 hrec
      have hd := mergeRow_dims_of_some src m src.width o2 o h2
      exact ⟨hd.1.trans hd2.1, hd.2.trans hd2.2⟩

theorem mergeRows_none_of (src : Image) (m : Nat) (out : Image)
    (h : ∃ i j, i < src.width ∧ j < m ∧ src.pix i j ≠ sentinel ∧ ¬(i < out.width ∧ j < out.height)) :
    mergeRows src m out = none := by
  induction m with
  | zero =>
    obtain ⟨i, j, _, hj, _⟩ := h
    omega
  | succ m ih =>
    show (match mergeRows src m out with
      | none => none
      | some o => mergeRow src m src.width o) = none
    obtain ⟨i, j, hi, hj, hne, hbad⟩ := h
    by_cases hjm : j < m
    · rw [ih ⟨i, j, hi, hjm, hne, hbad⟩]
    · have hjeq : j = m := by omega
      cases hrec : mergeRows src m out with
      | none => rfl
      | some o =>
        have hd := mergeRows_dims_of_some src m out o hrec
        show mergeRow src m src.width o = none
        apply mergeRow_none_of
        refine ⟨i, hi, hjeq ▸ hne, ?_⟩
        rw [hd.1, hd.2, ← hjeq]
        exact hbad

theorem mergeImage_eq_someT (src out : Image)
    (h : ∀ i j, i < src.width → j < src.height → src.pix i j ≠ sentinel → i < out.width ∧ j < out.height) :
    mergeImage src out = some (mergeImageT src out) :=
  mergeRows_eq_someT src src.height out h

theorem mergeImage_dims_of_some (src out o : Image)
    (h : mergeImage src out = some o) : o.width = out.width ∧ o.height = out.height :=
  mergeRows_dims_of_some src src.height out o h

theorem mergeImage_none_of (src out : Image)
    (h : ∃ i j, i < src.width ∧ j < src.height ∧ src.pix i j ≠ sentinel ∧ ¬(i < out.width ∧ j < out.height)) :
    mergeImage src out = none :=
  mergeRows_none_of src src.height out h

theorem mergeRow_sentinel (src : Image) (y n : Nat) (out : Image)
    (h : ∀ X Y, src.pix X Y = sentinel) : mergeRow src y n out = some out := by
  induction n with
  | zero => rfl
  | succ n ih =>
    show (match mergeRow src y n out with
      | none => none
      | some o => if src.pix n y = sentinel then some o else putPixel o n y (src.pix n y)) = _
    rw [ih]
    show (if src.pix n y = sentinel then some out else putPixel out n y (src.pix n y)) = some out
    rw [if_pos (h n y)]

theorem mergeRows_sentinel (src : Image) (m : Nat) (out : Image)
    (h : ∀ X Y, src.pix X Y = sentinel) : mergeRows src m out = some out := by
  induction m with
  | zero => rfl
  | succ m ih =>
    show (match mergeRows src m out with
      | none => none
      | some o => mergeRow src m src.width o) = _
    rw [ih]
    show mergeRow src m src.width out = some out
    exact mergeRow_sentinel src m src.width out h

theorem mergeImage_sentinel (src out : Image)
    (h : ∀ X Y, src.pix X Y = sentinel) : mergeImage src out = some out :=
  mergeRows_sentinel src src.height out h

/-! ### Small helpers -/

theorem cropT_width (src : Image) (b : Bbox) : (cropT src b).width = b.width := rfl

theorem cropT_height (src : Image) (b : Bbox) : (cropT src b).height = b.height := rfl

theorem Image.eq_of (i j : Image) (h1 : i.width = j.width) (h2 : i.height = j.height)
    (h3 : ∀ x y, i.pix x y = j.pix x y) : i = j := by
  cases i with
  | mk w h p =>
    cases j with
    | mk w2 h2p p2 =>
      simp only [] at h1 h2 h3
      subst h1
      subst h2
      have hp : p = p2 := funext fun x => funext fun y => h3 x y
      rw [hp]

theorem opaque_ne_sentinel (i : Image) (ho : i.Opaque) (x y : Nat) : i.pix x y ≠ sentinel := by
  intro he
  have ha := ho x y
  rw [he] at ha
  exact absurd ha (by decide)

theorem resizeNearest_keeps_alpha (img : Image) (w h : Nat) (ho : img.Opaque) :
    (resizeNearest img w h).Opaque := fun x y => ho _ _

theorem cropT_keeps_alpha (src : Image) (b : Bbox) (ho : src.Opaque) : (cropT src b).Opaque :=
  fun x y => ho _ _

/-- `inBounds` of the downscaled buffer implies that the box's write-back
fits in the detection-resolution sentinel buffer. -/
theorem boxFits_blank_of_inBounds (options : Settings) (source : Image) (b : Bbox)
    (h : inBounds (resizeNearest source options.detection.width options.detection.height) b) :
    boxFits (new_rgba8 options.detection.width options.detection.height) b := by
  intro i j hi hj
  have h1 : bX b + b.width ≤ options.detection.width := h.1
  have h2 : bY b + b.height ≤ options.detection.height := h.2
  rw [new_rgba8_width, new_rgba8_height]
  omega

/-- `inBounds` of a buffer implies that the box's write-back fits in any
buffer of the same dimensions. -/
theorem boxFits_of_inBounds (src : Image) (b : Bbox) (h : inBounds src b) : boxFits src b := by
  intro i j hi hj
  have h1 := h.1
  have h2 := h.2
  omega

/-- The scaled path reduced past its face loop, when every box is in
bounds of the downscaled buffer (box writes land in the sentinel buffer
at detection resolution, so they are always in bounds then). -/
theorem process_eq_merge (faces : List Bbox) (options : Settings) (blurF : BlurPrim) (source : Image)
    (hin : ∀ b ∈ faces, inBounds (resizeNearest source options.detection.width options.detection.height) b) :
    process faces options blurF source =
      mergeImage
        (resizeNearest
          (loop_total blurF (resizeNearest source options.detection.width options.detection.height) faces
            (new_rgba8 options.detection.width options.detection.height))
          options.capture.width options.capture.height)
        source := by
  show (match loop_go putPixel blurF (resizeNearest source options.detection.width options.detection.height) faces
      (new_rgba8 options.detection.width options.detection.height) with
    | none => none
    | some tmp => mergeImage (resizeNearest tmp options.capture.width options.capture.height) source) = _
  rw [loop_go_eq_some _ _ _ _ hin (fun b hb => boxFits_blank_of_inBounds options source b (hin b hb))]

/-- The fast path reduced past its face loop, when every box is in bounds
of the source (the write-back then lands inside the source-sized output). -/
theorem process_light_eq_some (faces : List Bbox) (options : Settings) (blurF : BlurPrim) (source : Image)
    (hin : ∀ b ∈ faces, inBounds source b) :
    process_light faces options blurF source = some (loop_total blurF source faces source) :=
  loop_go_eq_some blurF source faces source hin (fun b hb => boxFits_of_inBounds source b (hin b hb))

/-- With no detected boxes the scaled path is the identity: the sentinel
buffer stays fully transparent and the merge skips every pixel, so no
`put_pixel` runs at all. -/
theorem process_nil (options : Settings) (blurF : BlurPrim) (source : Image) :
    process [] options blurF source = some source := by
  rw [process_eq_merge [] options blurF source (by intro b hb; cases hb)]
  exact mergeImage_sentinel _ _ (fun X Y => rfl)

theorem process_light_nil (options : Settings) (blurF : BlurPrim) (source : Image) :
    process_light [] options blurF source = some source := rfl

/-! ### The claims -/

set_option maxRecDepth 40000

/-- On a decoded frame smaller than `settings.capture` the scaled path
panics in the merge loop: the box `{x:10, y:10, w:20, h:20}` writes a
non-sentinel (blurred, opaque) pixel into the upscaled 1280×720 buffer at
(38, 40), and `put_pixel(38, 40, …)` on the 1×1 output panics. -/
theorem process_small_frame_none :
    process [⟨10, 10, 20, 20⟩] ⟨30, ⟨1280, 720⟩, ⟨340, 180⟩⟩ idBlur
      ⟨1, 1, fun _ _ => ⟨10, 20, 30, 255⟩⟩ = none := by
  rw [process_eq_merge _ _ _ _ (by decide)]
  apply mergeImage_none_of
  exact ⟨38, 40, by decide, by decide, by decide, by decide⟩

/-- C1, counterexample: the claim quantifies over every source frame, but
on a 1×1 opaque frame with capture 1280×720, detection 340×180 and the
in-bounds box `{x:10, y:10, w:20, h:20}`, the merge loop's `put_pixel`
panics (modelled as `none`), so there is no output at all — in particular
the pixel (500, 500), which lies outside the upscaled box, has no output
value equal to its source value. -/
theorem c1_counterexample :
    (∀ b ∈ [(⟨10, 10, 20, 20⟩ : Bbox)], detInBounds ⟨30, ⟨1280, 720⟩, ⟨340, 180⟩⟩ b) ∧
    (∀ b ∈ [(⟨10, 10, 20, 20⟩ : Bbox)],
      ¬upscaledCovers ⟨30, ⟨1280, 720⟩, ⟨340, 180⟩⟩ b 500 500) ∧
    process [⟨10, 10, 20, 20⟩] ⟨30, ⟨1280, 720⟩, ⟨340, 180⟩⟩ idBlur
      ⟨1, 1, fun _ _ => ⟨10, 20, 30, 255⟩⟩ = none :=
  ⟨by decide, by decide, process_small_frame_none⟩

/-- C1, amended: scaled path — for every source frame at capture
resolution and every output coordinate lying outside every upscaled
detected box, `process` succeeds and leaves the pixel exactly equal to
the source pixel: the upscaled sentinel pixel there is the transparent
`[0,0,0,0]` value and the merge skips it. -/
theorem c1_scaled_path_pixel_preservation (faces : List Bbox) (options : Settings)
    (blurF : BlurPrim) (source : Image) (X Y : Nat)
    (hw : source.width = options.capture.width)
    (hh : source.height = options.capture.height)
    (hin : ∀ b ∈ faces, detInBounds options b)
    (hout : ∀ b ∈ faces, ¬upscaledCovers options b X Y) :
    ∃ out, process faces options blurF source = some out ∧ out.pix X Y = source.pix X Y := by
  have hin2 : ∀ b ∈ faces,
      inBounds (resizeNearest source options.detection.width options.detection.height) b :=
    fun b hb => ⟨(hin b hb).1, (hin b hb).2⟩
  rw [process_eq_merge faces options blurF source hin2,
    mergeImage_eq_someT _ _ (fun i j hi hj _ => ⟨by rw [hw]; exact hi, by rw [hh]; exact hj⟩)]
  refine ⟨_, rfl, ?_⟩
  rw [mergeImageT_pix, if_neg]
  intro hcond
  apply hcond.2.2
  rw [resizeNearest_pix, loop_total_width, loop_total_height, new_rgba8_width, new_rgba8_height,
    loop_total_pix]
  have hnone : lastHit faces
      (nearestIdx X options.detection.width options.capture.width)
      (nearestIdx Y options.detection.height options.capture.height) = none := by
    apply List.find?_eq_none.mpr
    intro b hb
    rw [decide_eq_true_eq]
    exact hout b (List.mem_reverse.mp hb)
  rw [hnone]
  rfl

/-- Witness for C1's amended theorem: capture 1280×720, detection 340×180,
a 1280×720 frame, one box `{x:10, y:10, w:20, h:20}`; the coordinate
(500, 500) maps to detection coordinate (132, 125), outside the box, and
keeps the source pixel. -/
theorem c1_scaled_path_pixel_preservation_witness :
    ∃ out, process [⟨10, 10, 20, 20⟩] ⟨30, ⟨1280, 720⟩, ⟨340, 180⟩⟩ idBlur
        ⟨1280, 720, fun _ _ => ⟨10, 20, 30, 255⟩⟩ = some out ∧
      out.pix 500 500 = (⟨1280, 720, fun _ _ => ⟨10, 20, 30, 255⟩⟩ : Image).pix 500 500 := by
  exact c1_scaled_path_pixel_preservation [⟨10, 10, 20, 20⟩] ⟨30, ⟨1280, 720⟩, ⟨340, 180⟩⟩ idBlur
    ⟨1280, 720, fun _ _ => ⟨10, 20, 30, 255⟩⟩ 500 500 rfl rfl (by decide) (by decide)

/-- C2, counterexample: the claim quantifies over every fully opaque
source frame, but on a 1×1 opaque frame with capture 1280×720, detection
340×180 and the in-bounds box `{x:10, y:10, w:20, h:20}`, the coordinate
(38, 40) lies inside the upscaled box (its detection-space source
coordinate (10, 10) is covered by the box), yet the program panics in the
merge loop (modelled as `none`): no output pixel equals the blurred
upscale, because there is no output at all. -/
theorem c2_counterexample :
    (⟨1, 1, fun _ _ => ⟨10, 20, 30, 255⟩⟩ : Image).Opaque ∧
    lastHit [⟨10, 10, 20, 20⟩] (nearestIdx 38 340 1280) (nearestIdx 40 180 720) =
      some ⟨10, 10, 20, 20⟩ ∧
    process [⟨10, 10, 20, 20⟩] ⟨30, ⟨1280, 720⟩, ⟨340, 180⟩⟩ idBlur
      ⟨1, 1, fun _ _ => ⟨10, 20, 30, 255⟩⟩ = none :=
  ⟨fun _ _ => rfl, by decide, process_small_frame_none⟩

/-- C2, amended: scaled path — for a fully opaque frame at capture
resolution, every output pixel inside an upscaled detected box (the box
whose write-back wins there, for overlapping boxes the last in detector
order) equals the nearest-neighbour upscale of the blurred, downscaled
crop of that box; the `[0,0,0,0]` sentinel test never matches a genuinely
blurred pixel of an opaque source, so the pixel is never silently left as
the original.  The hypothesis on `blurF` states that the library blur
maps opaque images to opaque images. -/
theorem c2_scaled_path_blur_inside (faces : List Bbox) (options : Settings)
    (blurF : BlurPrim) (source : Image) (b : Bbox) (X Y : Nat)
    (hw : source.width = options.capture.width)
    (hh : source.height = options.capture.height)
    (hin : ∀ b ∈ faces, detInBounds options b)
    (hopq : source.Opaque)
    (hblur : ∀ i : Image, i.Opaque → (blurF.f i).Opaque)
    (hX : X < options.capture.width) (hY : Y < options.capture.height)
    (hhit : lastHit faces (nearestIdx X options.detection.width options.capture.width)
        (nearestIdx Y options.detection.height options.capture.height) = some b) :
    ∃ out, process faces options blurF source = some out ∧
      out.pix X Y =
        (blurF.f (cropT (resizeNearest source options.detection.width options.detection.height) b)).pix
          (nearestIdx X options.detection.width options.capture.width - bX b)
          (nearestIdx Y options.detection.height options.capture.height - bY b) := by
  have hin2 : ∀ b ∈ faces,
      inBounds (resizeNearest source options.detection.width options.detection.height) b :=
    fun b hb => ⟨(hin b hb).1, (hin b hb).2⟩
  rw [process_eq_merge faces options blurF source hin2,
    mergeImage_eq_someT _ _ (fun i j hi hj _ => ⟨by rw [hw]; exact hi, by rw [hh]; exact hj⟩)]
  refine ⟨_, rfl, ?_⟩
  have hrespix : (resizeNearest
      (loop_total blurF (resizeNearest source options.detection.width options.detection.height) faces
        (new_rgba8 options.detection.width options.detection.height))
      options.capture.width options.capture.height).pix X Y =
      (blurF.f (cropT (resizeNearest source options.detection.width options.detection.height) b)).pix
        (nearestIdx X options.detection.width options.capture.width - bX b)
        (nearestIdx Y options.detection.height options.capture.height - bY b) := by
    rw [resizeNearest_pix, loop_total_width, loop_total_height, new_rgba8_width, new_rgba8_height,
      loop_total_pix, hhit]
  have hopqblur : ((blurF.f (cropT (resizeNearest source options.detection.width options.detection.height) b))).Opaque :=
    hblur _ (cropT_keeps_alpha _ b (resizeNearest_keeps_alpha source _ _ hopq))
  rw [mergeImageT_pix, if_pos]
  · exact hrespix
  · refine ⟨hX, hY, ?_⟩
    rw [hrespix]
    exact opaque_ne_sentinel _ hopqblur _ _

/-- Witness for C2's amended theorem: the spec's scenario at a 1280×720
frame; the coordinate (40, 40) maps to detection coordinate (10, 10),
inside the box, so the output pixel is the upscaled blurred crop pixel. -/
theorem c2_scaled_path_blur_inside_witness :
    ∃ out, process [⟨10, 10, 20, 20⟩] ⟨30, ⟨1280, 720⟩, ⟨340, 180⟩⟩ idBlur
        ⟨1280, 720, fun _ _ => ⟨10, 20, 30, 255⟩⟩ = some out ∧
      out.pix 40 40 =
        (idBlur.f (cropT (resizeNearest ⟨1280, 720, fun _ _ => ⟨10, 20, 30, 255⟩⟩ 340 180) ⟨10, 10, 20, 20⟩)).pix
          (nearestIdx 40 340 1280 - bX ⟨10, 10, 20, 20⟩)
          (nearestIdx 40 180 720 - bY ⟨10, 10, 20, 20⟩) := by
  exact c2_scaled_path_blur_inside [⟨10, 10, 20, 20⟩] ⟨30, ⟨1280, 720⟩, ⟨340, 180⟩⟩ idBlur
    ⟨1280, 720, fun _ _ => ⟨10, 20, 30, 255⟩⟩ ⟨10, 10, 20, 20⟩ 40 40
    rfl rfl (by decide) (fun _ _ => rfl) (fun i h => h) (by decide) (by decide) (by decide)

/-- C3: fast path — when every detected box is in bounds, `process_light`
succeeds and the output is the input except on the half-open box
rectangles: outside every box the pixel is the source pixel, and inside
(for the box whose write-back wins) it is the blur of the crop of that box
at the corresponding offset. -/
theorem c3_fast_path_blur (faces : List Bbox) (options : Settings) (blurF : BlurPrim)
    (source : Image) (X Y : Nat)
    (hin : ∀ b ∈ faces, inBounds source b) :
    ∃ out, process_light faces options blurF source = some out ∧
      ((∀ b ∈ faces, ¬covers b X Y) → out.pix X Y = source.pix X Y) ∧
      (∀ b, lastHit faces X Y = some b →
        out.pix X Y = (blurF.f (cropT source b)).pix (X - bX b) (Y - bY b)) := by
  refine ⟨_, process_light_eq_some faces options blurF source hin, ?_, ?_⟩
  · intro hnone
    rw [loop_total_pix]
    have h0 : lastHit faces X Y = none := by
      apply List.find?_eq_none.mpr
      intro b hb
      rw [decide_eq_true_eq]
      exact hnone b (List.mem_reverse.mp hb)
    rw [h0]
  · intro b hb
    rw [loop_total_pix, hb]

/-- Witness for C3: the spec's scenario, capture = detection = 640×480,
one box `{x:100, y:100, w:50, h:50}`: the pixel (120, 130) inside
`[100,150)×[100,150)` is the blurred crop pixel at offset (20, 30), and
the pixel (0, 0) outside it keeps the source value. -/
theorem c3_fast_path_blur_witness :
    (∃ out, process_light [⟨100, 100, 50, 50⟩] ⟨30, ⟨640, 480⟩, ⟨640, 480⟩⟩ idBlur
        ⟨640, 480, fun _ _ => ⟨10, 20, 30, 255⟩⟩ = some out ∧
      ((∀ b ∈ [(⟨100, 100, 50, 50⟩ : Bbox)], ¬covers b 120 130) →
        out.pix 120 130 = (⟨640, 480, fun _ _ => ⟨10, 20, 30, 255⟩⟩ : Image).pix 120 130) ∧
      (∀ b, lastHit [⟨100, 100, 50, 50⟩] 120 130 = some b →
        out.pix 120 130 =
          (idBlur.f (cropT ⟨640, 480, fun _ _ => ⟨10, 20, 30, 255⟩⟩ b)).pix (120 - bX b) (130 - bY b))) ∧
    (∃ out, process_light [⟨100, 100, 50, 50⟩] ⟨30, ⟨640, 480⟩, ⟨640, 480⟩⟩ idBlur
        ⟨640, 480, fun _ _ => ⟨10, 20, 30, 255⟩⟩ = some out ∧
      ((∀ b ∈ [(⟨100, 100, 50, 50⟩ : Bbox)], ¬covers b 0 0) →
        out.pix 0 0 = (⟨640, 480, fun _ _ => ⟨10, 20, 30, 255⟩⟩ : Image).pix 0 0) ∧
      (∀ b, lastHit [⟨100, 100, 50, 50⟩] 0 0 = some b →
        out.pix 0 0 =
          (idBlur.f (cropT ⟨640, 480, fun _ _ => ⟨10, 20, 30, 255⟩⟩ b)).pix (0 - bX b) (0 - bY b))) := by
  constructor
  · exact c3_fast_path_blur [⟨100, 100, 50, 50⟩] ⟨30, ⟨640, 480⟩, ⟨640, 480⟩⟩ idBlur
      ⟨640, 480, fun _ _ => ⟨10, 20, 30, 255⟩⟩ 120 130 (by decide)
  · exact c3_fast_path_blur [⟨100, 100, 50, 50⟩] ⟨30, ⟨640, 480⟩, ⟨640, 480⟩⟩ idBlur
      ⟨640, 480, fun _ _ => ⟨10, 20, 30, 255⟩⟩ 0 0 (by decide)

/-- C4: for every source frame on which the detector returns zero bounding
boxes, the fast-path operation `process_light` returns a buffer
bit-identical to the input frame. -/
theorem c4_fast_path_identity (options : Settings) (blurF : BlurPrim) (source : Image) :
    process_light [] options blurF source = some source := rfl

/-- C5: the claim asks that an out-of-bounds detected box be clamped to the
buffer before cropping, so that processing cannot crash; the code instead
passes the raw box to `GenericImageView::view`, which panics (modelled as
`none`).  Concretely, on a 128×128 frame a box `{x:100, y:0, w:50, h:50}`
has `x + width = 150 > 128` and processing aborts instead of clamping. -/
theorem c5_out_of_bounds_box_panics :
    process_light [⟨100, 0, 50, 50⟩] ⟨30, ⟨128, 128⟩, ⟨128, 128⟩⟩ idBlur
      ⟨128, 128, fun _ _ => ⟨10, 20, 30, 255⟩⟩ = none := by
  apply loop_go_eq_none
  exact ⟨⟨100, 0, 50, 50⟩, List.mem_singleton_self _, by decide⟩

/-- C6, counterexample: on the scaled path the output buffer's dimensions
are those of the decoded source frame, not `settings.capture`.  With
capture 2×2, detection 1×1 and a 1×1 source frame with no detected boxes,
`process` returns a 1×1 buffer although `settings.capture.width = 2`. -/
theorem c6_shape_counterexample :
    (process [] ⟨30, ⟨2, 2⟩, ⟨1, 1⟩⟩ idBlur ⟨1, 1, fun _ _ => ⟨10, 20, 30, 255⟩⟩).map Image.width =
        some 1 ∧
      (⟨30, ⟨2, 2⟩, ⟨1, 1⟩⟩ : Settings).capture.width = 2 := by
  refine ⟨?_, rfl⟩
  rw [process_nil]
  rfl

/-- C6, amended: for every source frame whose decoded dimensions equal
`settings.capture` (the camera's contract), the buffer returned by either
path has dimensions `settings.capture`, regardless of the detection
resolution. -/
theorem c6_output_dims (faces : List Bbox) (options : Settings) (blurF : BlurPrim)
    (source out : Image)
    (hw : source.width = options.capture.width) (hh : source.height = options.capture.height) :
    (process faces options blurF source = some out →
      out.width = options.capture.width ∧ out.height = options.capture.height) ∧
    (process_light faces options blurF source = some out →
      out.width = options.capture.width ∧ out.height = options.capture.height) := by
  constructor
  · intro h
    cases hl : loop_go putPixel blurF
        (resizeNearest source options.detection.width options.detection.height) faces
        (new_rgba8 options.detection.width options.detection.height) with
    | none =>
      have hnone : process faces options blurF source = none := by
        show (match loop_go putPixel blurF
            (resizeNearest source options.detection.width options.detection.height) faces
            (new_rgba8 options.detection.width options.detection.height) with
          | none => none
          | some tmp =>
            mergeImage (resizeNearest tmp options.capture.width options.capture.height) source) = none
        rw [hl]
      rw [hnone] at h
      cases h
    | some tmp =>
      have hpr : process faces options blurF source =
          mergeImage (resizeNearest tmp options.capture.width options.capture.height) source := by
        show (match loop_go putPixel blurF
            (resizeNearest source options.detection.width options.detection.height) faces
            (new_rgba8 options.detection.width options.detection.height) with
          | none => none
          | some tmp =>
            mergeImage (resizeNearest tmp options.capture.width options.capture.height) source) = _
        rw [hl]
      rw [hpr] at h
      have hd := mergeImage_dims_of_some _ _ _ h
      exact ⟨hd.1.trans hw, hd.2.trans hh⟩
  · intro h
    have hd := loop_go_dims_of_some blurF source faces source out h
    exact ⟨hd.1.trans hw, hd.2.trans hh⟩

/-- Witness for C6's amended theorem at a 2×2 frame matching capture. -/
theorem c6_output_dims_witness :
    (process [] ⟨30, ⟨2, 2⟩, ⟨2, 2⟩⟩ idBlur ⟨2, 2, fun _ _ => ⟨10, 20, 30, 255⟩⟩ =
        some ⟨2, 2, fun _ _ => ⟨10, 20, 30, 255⟩⟩ →
      (⟨2, 2, fun _ _ => ⟨10, 20, 30, 255⟩⟩ : Image).width =
          (⟨30, ⟨2, 2⟩, ⟨2, 2⟩⟩ : Settings).capture.width ∧
        (⟨2, 2, fun _ _ => ⟨10, 20, 30, 255⟩⟩ : Image).height =
          (⟨30, ⟨2, 2⟩, ⟨2, 2⟩⟩ : Settings).capture.height) ∧
    (process_light [] ⟨30, ⟨2, 2⟩, ⟨2, 2⟩⟩ idBlur ⟨2, 2, fun _ _ => ⟨10, 20, 30, 255⟩⟩ =
        some ⟨2, 2, fun _ _ => ⟨10, 20, 30, 255⟩⟩ →
      (⟨2, 2, fun _ _ => ⟨10, 20, 30, 255⟩⟩ : Image).width =
          (⟨30, ⟨2, 2⟩, ⟨2, 2⟩⟩ : Settings).capture.width ∧
        (⟨2, 2, fun _ _ => ⟨10, 20, 30, 255⟩⟩ : Image).height =
          (⟨30, ⟨2, 2⟩, ⟨2, 2⟩⟩ : Settings).capture.height) :=
  c6_output_dims [] ⟨30, ⟨2, 2⟩, ⟨2, 2⟩⟩ idBlur ⟨2, 2, fun _ _ => ⟨10, 20, 30, 255⟩⟩
    ⟨2, 2, fun _ _ => ⟨10, 20, 30, 255⟩⟩ rfl rfl

/-- C8: with a detector stub returning the empty box list, one run of the
per-frame pipeline (either path) maps the input frame to itself, and a
second run on that output returns the same buffer again. -/
theorem c8_idempotent_noop (options : Settings) (blurF : BlurPrim) (source : Image) :
    process_light [] options blurF source = some source ∧
    (process_light [] options blurF source).bind (process_light [] options blurF) = some source ∧
    process [] options blurF source = some source ∧
    (process [] options blurF source).bind (process [] options blurF) = some source := by
  have hl : process_light [] options blurF source = some source := rfl
  have hp : process [] options blurF source = some source := process_nil options blurF source
  refine ⟨hl, ?_, hp, ?_⟩
  · rw [hl]
    exact hl
  · rw [hp]
    exact hp

/-- C9: when the compressed frame bytes are malformed (the decoder fails),
per-frame processing produces no output buffer at all: the `unwrap` panic
(modelled as `none`) aborts before either path runs. -/
theorem c9_decode_failure_fatal (decode : List Nat → Option Image) (faces : List Bbox)
    (blurF : BlurPrim) (buffer : List Nat) (options : Settings)
    (h : decode buffer = none) :
    get_image_from_frame decode faces blurF buffer options = none := by
  show (match decode buffer with
    | none => none
    | some image =>
      if options.detection = options.capture then process_light faces options blurF image
      else process faces options blurF image) = none
  rw [h]

/-- Witness for C9 at a concrete failing decoder. -/
theorem c9_decode_failure_fatal_witness :
    get_image_from_frame (fun _ => none) [] idBlur [] ⟨30, ⟨2, 2⟩, ⟨2, 2⟩⟩ = none :=
  c9_decode_failure_fatal (fun _ => none) [] idBlur [] ⟨30, ⟨2, 2⟩, ⟨2, 2⟩⟩ rfl

theorem boxDisjoint_symm {a b : Bbox} (h : BoxDisjoint a b) : BoxDisjoint b a :=
  fun X Y hc => h X Y ⟨hc.2, hc.1⟩

/-- `find?` is determined by membership when at most one element satisfies
the predicate. -/
theorem find?_eq_some_of_unique (p : Bbox → Bool) (l : List Bbox) (b : Bbox)
    (hu : ∀ a ∈ l, ∀ c ∈ l, p a = true → p c = true → a = c)
    (hb : b ∈ l) (hpb : p b = true) : List.find? p l = some b := by
  induction l with
  | nil => cases hb
  | cons a rest ih =>
    rw [List.find?_cons]
    cases hpa : p a with
    | true =>
      show some a = some b
      exact congrArg some (hu a (List.mem_cons_self a rest) b hb hpa hpb)
    | false =>
      show List.find? p rest = some b
      rcases List.mem_cons.mp hb with hba | hbr
      · rw [← hba] at hpa
        rw [hpb] at hpa
        cases hpa
      · exact ih
          (fun a2 ha2 c hc => hu a2 (List.mem_cons_of_mem _ ha2) c (List.mem_cons_of_mem _ hc))
          hbr

/-- For pairwise non-overlapping boxes the winning box at a coordinate is
permutation invariant. -/
theorem lastHit_perm (faces faces2 : List Bbox) (hperm : faces.Perm faces2)
    (hdisj : List.Pairwise BoxDisjoint faces) (X Y : Nat) :
    lastHit faces X Y = lastHit faces2 X Y := by
  have huniq : ∀ a ∈ faces, ∀ c ∈ faces, covers a X Y → covers c X Y → a = c := by
    intro a ha c hc hca hcc
    by_cases hac : a = c
    · exact hac
    · exact absurd ⟨hca, hcc⟩ (hdisj.forall (fun _ _ h => boxDisjoint_symm h) ha hc hac X Y)
  cases hfind : lastHit faces X Y with
  | some b =>
    have hcb : covers b X Y := by
      have := List.find?_some hfind
      rwa [decide_eq_true_eq] at this
    have hbm : b ∈ faces := List.mem_reverse.mp (List.mem_of_find?_eq_some hfind)
    symm
    apply find?_eq_some_of_unique
    · intro a ha c hc hpa hpc
      rw [decide_eq_true_eq] at hpa hpc
      exact huniq a (hperm.mem_iff.mpr (List.mem_reverse.mp ha)) c
        (hperm.mem_iff.mpr (List.mem_reverse.mp hc)) hpa hpc
    · exact List.mem_reverse.mpr (hperm.mem_iff.mp hbm)
    · rw [decide_eq_true_eq]
      exact hcb
  | none =>
    symm
    apply List.find?_eq_none.mpr
    intro x hx
    have hxm : x ∈ faces := hperm.mem_iff.mpr (List.mem_reverse.mp hx)
    exact List.find?_eq_none.mp hfind x (List.mem_reverse.mpr hxm)

/-- C7: for pairwise non-overlapping, in-bounds boxes, the result of the
compositing loop is independent of the order in which the detector lists
the boxes: any permutation yields a bit-identical output buffer (and when
a box's write-back would leave the output buffer, both orders panic). -/
theorem c7_box_order_independence (faces faces2 : List Bbox) (options : Settings)
    (blurF : BlurPrim) (source vase : Image)
    (hperm : faces.Perm faces2)
    (hdisj : List.Pairwise BoxDisjoint faces)
    (hin : ∀ b ∈ faces, inBounds source b) :
    loop_faces faces options blurF source vase putPixel =
      loop_faces faces2 options blurF source vase putPixel := by
  have hin2 : ∀ b ∈ faces2, inBounds source b := fun b hb => hin b (hperm.mem_iff.mpr hb)
  show loop_go putPixel blurF source faces vase = loop_go putPixel blurF source faces2 vase
  by_cases hfit : ∀ b ∈ faces, boxFits vase b
  · rw [loop_go_eq_some blurF source faces vase hin hfit,
      loop_go_eq_some blurF source faces2 vase hin2 (fun b hb => hfit b (hperm.mem_iff.mpr hb))]
    congr 1
    apply Image.eq_of
    · rw [loop_total_width, loop_total_width]
    · rw [loop_total_height, loop_total_height]
    · intro x y
      rw [loop_total_pix, loop_total_pix, lastHit_perm faces faces2 hperm hdisj x y]
  · push_neg at hfit
    obtain ⟨b, hb, hnb⟩ := hfit
    rw [loop_go_none_of_unfit blurF source faces vase hin ⟨b, hb, hnb⟩,
      loop_go_none_of_unfit blurF source faces2 vase hin2 ⟨b, hperm.mem_iff.mp hb, hnb⟩]

/-- Witness for C7: two disjoint boxes on a 16×16 frame, swapped. -/
theorem c7_box_order_independence_witness :
    loop_faces [⟨0, 0, 2, 2⟩, ⟨10, 0, 2, 2⟩] ⟨30, ⟨16, 16⟩, ⟨16, 16⟩⟩ idBlur
        ⟨16, 16, fun _ _ => ⟨10, 20, 30, 255⟩⟩ ⟨16, 16, fun _ _ => ⟨10, 20, 30, 255⟩⟩ putPixel =
      loop_faces [⟨10, 0, 2, 2⟩, ⟨0, 0, 2, 2⟩] ⟨30, ⟨16, 16⟩, ⟨16, 16⟩⟩ idBlur
        ⟨16, 16, fun _ _ => ⟨10, 20, 30, 255⟩⟩ ⟨16, 16, fun _ _ => ⟨10, 20, 30, 255⟩⟩ putPixel := by
  apply c7_box_order_independence
  · exact List.Perm.swap (⟨10, 0, 2, 2⟩ : Bbox) (⟨0, 0, 2, 2⟩ : Bbox) []
  · refine List.Pairwise.cons ?_ (List.pairwise_singleton _ _)
    intro c hc
    rw [List.mem_singleton] at hc
    rw [hc]
    intro X Y hcov
    have e1 : bX (⟨0, 0, 2, 2⟩ : Bbox) = 0 := by decide
    have e2 : bX (⟨10, 0, 2, 2⟩ : Bbox) = 10 := by decide
    have h1 : X < 0 + 2 := by
      have h := hcov.1.2.1
      rw [e1] at h
      exact h
    have h2 : 10 ≤ X := by
      have h := hcov.2.1
      rw [e2] at h
      exact h
    omega
  · intro b hb
    rcases List.mem_cons.mp hb with hb1 | hb2
    · rw [hb1]
      exact (by decide : inBounds ⟨16, 16, fun _ _ => ⟨10, 20, 30, 255⟩⟩ (⟨0, 0, 2, 2⟩ : Bbox))
    · rw [List.mem_singleton.mp hb2]
      exact (by decide : inBounds ⟨16, 16, fun _ _ => ⟨10, 20, 30, 255⟩⟩ (⟨10, 0, 2, 2⟩ : Bbox))

/-- C10: when `settings.detection` equals `settings.capture`, the scaled
path `process` and the fast path `process_light` agree bit-for-bit on
every fully opaque source frame at capture resolution and every detector
result (they also panic together on out-of-bounds boxes): nearest-neighbour
`resize_exact` to the same dimensions is the identity on the buffer, and a
blurred opaque pixel never equals the `[0,0,0,0]` sentinel.  The blur
hypotheses say that the library blur preserves opacity and only reads the
buffer content (it maps bit-identical buffers to bit-identical buffers). -/
theorem c10_fast_path_refinement (faces : List Bbox) (options : Settings) (blurF : BlurPrim)
    (source : Image)
    (hdet : options.detection = options.capture)
    (hw : source.width = options.capture.width)
    (hh : source.height = options.capture.height)
    (hopq : source.Opaque)
    (hblur : ∀ i : Image, i.Opaque → (blurF.f i).Opaque)
    (hresp : ∀ i j : Image, BufferEq i j → BufferEq (blurF.f i) (blurF.f j)) :
    OptionBufferEq (process faces options blurF source) (process_light faces options blurF source) := by
  have hdw : options.detection.width = options.capture.width := by rw [hdet]
  have hdh : options.detection.height = options.capture.height := by rw [hdet]
  set low := resizeNearest source options.detection.width options.detection.height with hlowdef
  have hlw : low.width = source.width := by rw [hlowdef, resizeNearest_width, hdw, hw]
  have hlh : low.height = source.height := by rw [hlowdef, resizeNearest_height, hdh, hh]
  have hds : options.detection.width = source.width := by rw [hdw, hw]
  have hdsh : options.detection.height = source.height := by rw [hdh, hh]
  have hinIff : ∀ b : Bbox, inBounds low b ↔ inBounds source b := by
    intro b
    unfold inBounds
    rw [hlw, hlh]
  by_cases hall : ∀ b ∈ faces, inBounds source b
  · have halllow : ∀ b ∈ faces, inBounds low b := fun b hb => (hinIff b).mpr (hall b hb)
    have h1 := process_eq_merge faces options blurF source halllow
    have h2 := process_light_eq_some faces options blurF source hall
    set T1 := loop_total blurF low faces (new_rgba8 options.detection.width options.detection.height)
      with hT1def
    have hT1w : T1.width = options.capture.width := by
      rw [hT1def, loop_total_width, new_rgba8_width]
      exact hdw
    have hT1h : T1.height = options.capture.height := by
      rw [hT1def, loop_total_height, new_rgba8_height]
      exact hdh
    have h1m : process faces options blurF source =
        some (mergeImageT (resizeNearest T1 options.capture.width options.capture.height) source) := by
      rw [h1]
      exact mergeImage_eq_someT _ _ (fun i j hi hj _ => ⟨by rw [hw]; exact hi, by rw [hh]; exact hj⟩)
    rw [h1m, h2]
    show BufferEq
      (mergeImageT (resizeNearest T1 options.capture.width options.capture.height) source)
      (loop_total blurF source faces source)
    refine ⟨?_, ?_, ?_⟩
    · rw [mergeImageT_width, loop_total_width]
    · rw [mergeImageT_height, loop_total_height]
    · intro x y hx hy
      rw [mergeImageT_width] at hx
      rw [mergeImageT_height] at hy
      have hxc : x < options.capture.width := by
        rw [← hw]
        exact hx
      have hyc : y < options.capture.height := by
        rw [← hh]
        exact hy
      have hres : (resizeNearest T1 options.capture.width options.capture.height).pix x y =
          T1.pix x y := by
        rw [resizeNearest_pix, hT1w, hT1h, nearestIdx_self x _ hxc, nearestIdx_self y _ hyc]
      rw [mergeImageT_pix, loop_total_pix]
      cases hfind : lastHit faces x y with
      | none =>
        have hT1pix : T1.pix x y = sentinel := by
          rw [hT1def, loop_total_pix, hfind]
          rfl
        have hnc : ¬(x < (resizeNearest T1 options.capture.width options.capture.height).width ∧
            y < (resizeNearest T1 options.capture.width options.capture.height).height ∧
            (resizeNearest T1 options.capture.width options.capture.height).pix x y ≠ sentinel) := by
          intro hcond
          exact hcond.2.2 (hres.trans hT1pix)
        rw [if_neg hnc]
      | some b =>
        have hcov : covers b x y := by
          have := List.find?_some hfind
          rwa [decide_eq_true_eq] at this
        have hbm : b ∈ faces := List.mem_reverse.mp (List.mem_of_find?_eq_some hfind)
        have hbin : inBounds source b := hall b hbm
        have hcropEq : BufferEq (cropT low b) (cropT source b) := by
          refine ⟨rfl, rfl, ?_⟩
          intro u v hu hv
          rw [cropT_width] at hu
          rw [cropT_height] at hv
          show low.pix (bX b + u) (bY b + v) = source.pix (bX b + u) (bY b + v)
          rw [hlowdef, resizeNearest_pix, hds, hdsh,
            nearestIdx_self _ _ (by have := hbin.1; omega),
            nearestIdx_self _ _ (by have := hbin.2; omega)]
        have hblurEq := hresp _ _ hcropEq
        obtain ⟨hc1, hc2, hc3, hc4⟩ := hcov
        have p1eq : (blurF.f (cropT low b)).pix (x - bX b) (y - bY b) =
            (blurF.f (cropT source b)).pix (x - bX b) (y - bY b) := by
          apply hblurEq.2.2
          · rw [blurF.width_eq, cropT_width]
            omega
          · rw [blurF.height_eq, cropT_height]
            omega
        have hopql : low.Opaque := by
          rw [hlowdef]
          exact resizeNearest_keeps_alpha source _ _ hopq
        have hopqp : ((blurF.f (cropT low b))).Opaque := hblur _ (cropT_keeps_alpha low b hopql)
        have hT1pix : T1.pix x y = (blurF.f (cropT low b)).pix (x - bX b) (y - bY b) := by
          rw [hT1def, loop_total_pix, hfind]
        rw [if_pos]
        · rw [hres, hT1pix, p1eq]
        · refine ⟨hxc, hyc, ?_⟩
          rw [hres, hT1pix]
          exact opaque_ne_sentinel _ hopqp _ _
  · have hex : ∃ b ∈ faces, ¬inBounds source b := by
      push_neg at hall
      exact hall
    have hexlow : ∃ b ∈ faces, ¬inBounds low b := by
      obtain ⟨b, hb, hnb⟩ := hex
      exact ⟨b, hb, fun h => hnb ((hinIff b).mp h)⟩
    have h1 : process faces options blurF source = none := by
      show (match loop_go putPixel blurF low faces
          (new_rgba8 options.detection.width options.detection.height) with
        | none => none
        | some tmp =>
          mergeImage (resizeNearest tmp options.capture.width options.capture.height) source) = none
      rw [loop_go_eq_none putPixel blurF low faces _ hexlow]
    have h2 : process_light faces options blurF source = none :=
      loop_go_eq_none putPixel blurF source faces source hex
    rw [h1, h2]
    exact trivial

/-- Witness for C10: capture = detection = 4×4, opaque 4×4 frame, one box
`{x:1, y:1, w:2, h:2}`, identity blur. -/
theorem c10_fast_path_refinement_witness :
    OptionBufferEq
      (process [⟨1, 1, 2, 2⟩] ⟨30, ⟨4, 4⟩, ⟨4, 4⟩⟩ idBlur ⟨4, 4, fun _ _ => ⟨10, 20, 30, 255⟩⟩)
      (process_light [⟨1, 1, 2, 2⟩] ⟨30, ⟨4, 4⟩, ⟨4, 4⟩⟩ idBlur ⟨4, 4, fun _ _ => ⟨10, 20, 30, 255⟩⟩) :=
  c10_fast_path_refinement [⟨1, 1, 2, 2⟩] ⟨30, ⟨4, 4⟩, ⟨4, 4⟩⟩ idBlur
    ⟨4, 4, fun _ _ => ⟨10, 20, 30, 255⟩⟩ rfl rfl rfl (fun _ _ => rfl) (fun _ h => h)
    (fun _ _ h => h)
